import Mathlib

/-!
# MEDCLARE: `frontend/src/components/TextToSpeech.jsx`

A shallow embedding of the text sanitizer `cleanMarkdown` and of the
`TextToSpeech` component (its two pieces of React state, its handlers, its
mount effect and its render function), followed by the properties proved
about them.

A JavaScript string is a sequence of UTF-16 code units; the regular
expressions of `cleanMarkdown` carry no `u` flag, so they work code unit by
code unit.  A string is therefore a list of natural numbers (code units are
the numbers below `2 ^ 16`; every function below is defined on all lists).
-/

namespace TextToSpeech

/-! ## JavaScript values -/

/-- A JavaScript string: its UTF-16 code units. -/
abbrev JSString := List Nat

/-- The UTF-16 code units of one Unicode scalar value. -/
def encodeUTF16 (c : Char) : List Nat :=
  if c.toNat < 0x10000 then [c.toNat]
  else [0xD800 + (c.toNat - 0x10000) / 0x400, 0xDC00 + (c.toNat - 0x10000) % 0x400]

/-- The JavaScript string written as the given literal. -/
def js (s : String) : JSString :=
  (s.toList.map encodeUTF16).flatten

/-- A JavaScript number, by the cases `ToBoolean` and property lookup can tell
apart: `NaN`, the two zeros and the two infinities, and the finite non-special
values `mantissa * 2 ^ exponent`. -/
inductive JSNumber where
  | nan
  | infinity (negative : Bool)
  | negZero
  | finite (mantissa : Int) (exponent : Int)
  deriving DecidableEq, Repr

/-- A JavaScript value: the primitives, and two kinds of object.
`stringObject s` is the wrapper `new String(s)`, whose `replace` and `trim` are
those of `String.prototype`, applied to `s`.  `object` is an object with no
`replace` property, own or inherited (an object literal, an array, a
function).  An object that brings a `replace` of its own is not represented:
what `cleanMarkdown` does with it is whatever that method does. -/
inductive JSValue where
  | undefined
  | null
  | boolean (b : Bool)
  | number (n : JSNumber)
  | bigint (i : Int)
  | string (s : JSString)
  | symbol
  | stringObject (s : JSString)
  | object
  deriving DecidableEq, Repr

/-- What a handler can throw. -/
inductive JSError where
  | typeError (message : String)
  deriving DecidableEq, Repr

/-- The abstract operation `ToBoolean`, as used by `!text`. -/
def JSValue.toBoolean : JSValue → Bool
  | .undefined => false
  | .null => false
  | .boolean b => b
  | .number .nan => false
  | .number .negZero => false
  | .number (.infinity _) => true
  | .number (.finite m _) => decide (m ≠ 0)
  | .bigint i => decide (i ≠ 0)
  | .string s => !s.isEmpty
  | .symbol => true
  | .stringObject _ => true
  | .object => true

/-- The value is `undefined` or `null`. -/
def JSValue.isAbsent : JSValue → Bool
  | .undefined => true
  | .null => true
  | _ => false

/-- The value is a string (a primitive one: `typeof text === 'string'`). -/
def JSValue.isString : JSValue → Bool
  | .string _ => true
  | _ => false

/-- The lookup of `replace` on the value gives a function: that of
`String.prototype`, reached from a string and from a `String` object.  The
prototypes of the other primitives have none. -/
def JSValue.hasReplaceMethod : JSValue → Bool
  | .string _ => true
  | .stringObject _ => true
  | _ => false

/-! ## The text sanitizer -/

/-- The character class of the first `replace`: `#`, `*`, backtick, `_`, `~`,
`[`, `]`, `(`, `)`, `<` and `>`. -/
def isMarkdownSymbol (c : Nat) : Bool :=
  c = 0x23 || c = 0x2A || c = 0x60 || c = 0x5F || c = 0x7E || c = 0x5B || c = 0x5D ||
  c = 0x28 || c = 0x29 || c = 0x3C || c = 0x3E

/-- The character `\n`. -/
def isNewline (c : Nat) : Bool :=
  c = 0x0A

/-- The class `\s`, which is also what `trim` strips: the ECMAScript
`WhiteSpace` code points (TAB, VT, FF, SP, NBSP, ZWNBSP and the category Zs)
and `LineTerminator` code points (LF, CR, LS, PS). -/
def isWhiteSpace (c : Nat) : Bool :=
  c = 0x09 || c = 0x0A || c = 0x0B || c = 0x0C || c = 0x0D || c = 0x20 || c = 0xA0 ||
  c = 0x1680 || (0x2000 ≤ c && c ≤ 0x200A) || c = 0x2028 || c = 0x2029 || c = 0x202F ||
  c = 0x205F || c = 0x3000 || c = 0xFEFF

/-- The space character, the replacement text of the second and third `replace`. -/
def space : Nat := 0x20

/-- The global replacement `s.replace(/[class]/g, '')`: every code unit of the
class is deleted. -/
def removeAll (p : Nat → Bool) (s : JSString) : JSString :=
  s.filter (fun c => !p c)

/-- The global replacement `s.replace(/[class]+/g, r)`: scanning from the left,
the longest run of class members starting at the current position is replaced
by the single code unit `r` and the scan resumes after the run; a code unit
outside the class is copied. -/
def replaceRuns (p : Nat → Bool) (r : Nat) : JSString → JSString
  | [] => []
  | c :: cs =>
    if p c then r :: replaceRuns p r (cs.dropWhile p)
    else c :: replaceRuns p r cs
termination_by s => s.length
decreasing_by
  · have h := (List.dropWhile_suffix (l := cs) p).length_le
    simp only [List.length_cons]
    omega
  · simp

/-- The method `String.prototype.trim`: leading and trailing white space is
removed. -/
def trim (s : JSString) : JSString :=
  (s.dropWhile isWhiteSpace).rdropWhile isWhiteSpace

/-- The method chain of `cleanMarkdown`, on a string. -/
def cleanString (text : JSString) : JSString :=
  trim (replaceRuns isWhiteSpace space (replaceRuns isNewline space
    (removeAll isMarkdownSymbol text)))

/-- The function `cleanMarkdown`.  A falsy argument gives `''`; a string goes
through the method chain, and so does the string held by a `String` object,
which the first `replace` takes as its receiver; on a truthy value with no
`replace` the lookup gives `undefined` and the call throws. -/
def cleanMarkdown (text : JSValue) : Except JSError JSString :=
  if !text.toBoolean then .ok []
  else
    match text with
    | .string s => .ok (cleanString s)
    | .stringObject s => .ok (cleanString s)
    | _ => .error (.typeError "text.replace is not a function")

/-- No code unit of the class heads the string. -/
def HeadOutside (p : Nat → Bool) (s : JSString) : Prop :=
  ∀ c ∈ s.head?, p c = false

/-- The maximal runs of code units outside the class `p`, in their order of
occurrence: the string is cut at every member of the class and the empty
pieces are discarded. -/
def maximalRuns (p : Nat → Bool) (s : JSString) : List JSString :=
  (s.splitOnP p).filter (fun w => !w.isEmpty)

/-- The sanitizer as the specification words it: the markdown symbols are
deleted, and the maximal runs of non-white-space code units of what is left
are joined by single spaces. -/
def cleanStringSpec (text : JSString) : JSString :=
  [space].intercalate
    (maximalRuns isWhiteSpace (text.filter (fun c => !isMarkdownSymbol c)))

/-! ## The component -/

/-- The props of the component.  `language` is `none` when the prop is omitted,
which is when the destructuring default applies. -/
structure Props where
  text : JSValue
  language : Option JSString
  deriving DecidableEq, Repr

/-- The binding `language = 'en-US'` of the parameter list. -/
def Props.languageOrDefault (props : Props) : JSString :=
  props.language.getD (js "en-US")

/-- A `SpeechSynthesisUtterance`, by its text and its `lang`. -/
structure Utterance where
  text : JSString
  lang : JSString
  deriving DecidableEq, Repr

/-- A call on `window.speechSynthesis`. -/
inductive PlatformCall where
  | cancel
  | speak (utterance : Utterance)
  deriving DecidableEq, Repr

/-- A component instance and what it has done to its environment: whether
`window.speechSynthesis` (with the `SpeechSynthesisUtterance` constructor) is
present, the two `useState` cells, the calls made on the engine so far (oldest
first) and the number of `console.error` lines written. -/
structure World where
  capability : Bool
  isSpeaking : Bool
  supported : Bool
  calls : List PlatformCall
  consoleErrors : Nat
  deriving DecidableEq, Repr

/-- How a handler ends: the world it leaves, and what it threw, if anything. -/
structure Outcome where
  world : World
  thrown : Option JSError
  deriving DecidableEq, Repr

/-- The world at the first render: `useState(false)` and `useState(true)`. -/
def initial (capability : Bool) : World :=
  { capability := capability, isSpeaking := false, supported := true, calls := [],
    consoleErrors := 0 }

/-- The body of the mount effect. -/
def mountEffect (w : World) : World :=
  if !w.capability then { w with supported := false } else w

/-- The cleanup function of the mount effect, run at unmount:
`window.speechSynthesis?.cancel()`. -/
def cleanup (w : World) : World :=
  if w.capability then { w with calls := w.calls ++ [.cancel] } else w

/-- The handler `stop`.  Without the engine the member access throws before
the state is set. -/
def stop (w : World) : Outcome :=
  if !w.capability then
    ⟨w, some (.typeError "Cannot read properties of undefined (reading 'cancel')")⟩
  else
    ⟨{ w with calls := w.calls ++ [.cancel], isSpeaking := false }, none⟩

/-- The handler `speak`, with the props of the render that created it. -/
def speak (props : Props) (w : World) : Outcome :=
  if !w.supported || !props.text.toBoolean then ⟨w, none⟩
  else if !w.capability then
    ⟨w, some (.typeError "Cannot read properties of undefined (reading 'cancel')")⟩
  else
    let w1 := { w with calls := w.calls ++ [.cancel] }
    match cleanMarkdown props.text with
    | .error e => ⟨w1, some e⟩
    | .ok cleanedText =>
      ⟨{ w1 with calls := w1.calls ++ [.speak ⟨cleanedText, props.languageOrDefault⟩] }, none⟩

/-- The callback `utterance.onstart`. -/
def onstart (w : World) : World :=
  { w with isSpeaking := true }

/-- The callback `utterance.onend`. -/
def onend (w : World) : World :=
  { w with isSpeaking := false }

/-- The callback `utterance.onerror`. -/
def onerror (w : World) : World :=
  { w with consoleErrors := w.consoleErrors + 1, isSpeaking := false }

/-- A button of the rendered output: the one wired to `speak`, with its
`disabled` attribute, or the one wired to `stop`. -/
inductive Control where
  | start (disabled : Bool)
  | stop
  deriving DecidableEq, Repr

/-- What the component returns: `null`, or the `div.tts-container` with its
children. -/
inductive View where
  | null
  | container (children : List Control)
  deriving DecidableEq, Repr

/-- The return statements of the component function. -/
def render (props : Props) (w : World) : View :=
  if !w.supported then .null
  else .container [if !w.isSpeaking then .start (!props.text.toBoolean) else .stop]

/-- What can happen to a rendered component before it is unmounted: its mount
effect runs, the user clicks a button, the engine fires a callback. -/
inductive Event where
  | mountEffect
  | speak (props : Props)
  | stop
  | onstart
  | onend
  | onerror
  deriving DecidableEq, Repr

/-- The world after one event. -/
def step (w : World) : Event → World
  | .mountEffect => mountEffect w
  | .speak props => (speak props w).world
  | .stop => (stop w).world
  | .onstart => onstart w
  | .onend => onend w
  | .onerror => onerror w

/-- The world after a history of events, from the first render. -/
def run (capability : Bool) (history : List Event) : World :=
  history.foldl step (initial capability)

/-- The utterances the engine still holds after the given calls: `speak`
appends one to the engine's queue and `cancel` removes all of them. -/
def outstanding (calls : List PlatformCall) : List Utterance :=
  calls.foldl (fun queue call =>
    match call with
    | .cancel => []
    | .speak u => queue ++ [u]) []

/-- The value is the empty string, `undefined` or `null`. -/
def JSValue.isEmptyOrAbsent : JSValue → Bool
  | .string s => s.isEmpty
  | .undefined => true
  | .null => true
  | _ => false

/-- A world the component can be in: the world of the first render followed
by some history of events. -/
def Reachable (w : World) : Prop :=
  ∃ history, w = run w.capability history

/-- A reachable world whose history starts with the mount effect. -/
def Mounted (w : World) : Prop :=
  ∃ history, w = run w.capability (.mountEffect :: history)

/-! ## Unfolding `replaceRuns` -/

theorem replaceRuns_nil (p : Nat → Bool) (r : Nat) : replaceRuns p r [] = [] := by
  rw [replaceRuns]

theorem replaceRuns_cons_pos (p : Nat → Bool) (r : Nat) {c : Nat} (cs : JSString)
    (h : p c = true) : replaceRuns p r (c :: cs) = r :: replaceRuns p r (cs.dropWhile p) := by
  rw [replaceRuns, if_pos h]

theorem replaceRuns_cons_neg (p : Nat → Bool) (r : Nat) {c : Nat} (cs : JSString)
    (h : p c = false) : replaceRuns p r (c :: cs) = c :: replaceRuns p r cs := by
  rw [replaceRuns, if_neg (by simp [h])]

/-- Induction along the scan of `replaceRuns`. -/
theorem scan_induction (p : Nat → Bool) {motive : JSString → Prop} (nil : motive [])
    (pos : ∀ c cs, p c = true → motive (cs.dropWhile p) → motive (c :: cs))
    (neg : ∀ c cs, p c = false → motive cs → motive (c :: cs)) : ∀ s, motive s :=
  replaceRuns.induct p 0 motive nil pos (fun c cs h ih => neg c cs (by simpa using h) ih)

theorem headOutside_nil (p : Nat → Bool) : HeadOutside p [] := by
  simp [HeadOutside]

theorem headOutside_cons (p : Nat → Bool) (c : Nat) (cs : JSString) :
    HeadOutside p (c :: cs) ↔ p c = false := by
  simp [HeadOutside]

theorem headOutside_dropWhile (p : Nat → Bool) (s : JSString) :
    HeadOutside p (s.dropWhile p) := by
  induction s with
  | nil => simp [HeadOutside]
  | cons c cs ih =>
    by_cases h : p c = true
    · rw [List.dropWhile_cons_of_pos h]; exact ih
    · rw [List.dropWhile_cons_of_neg h]; simpa [HeadOutside] using h

theorem dropWhile_of_headOutside {p : Nat → Bool} {s : JSString} (h : HeadOutside p s) :
    s.dropWhile p = s := by
  cases s with
  | nil => rfl
  | cons c cs =>
    have hc : p c = false := (headOutside_cons p c cs).1 h
    rw [List.dropWhile_cons_of_neg (by simp [hc])]

theorem mem_replaceRuns (p : Nat → Bool) (r : Nat) (s : JSString) :
    ∀ x ∈ replaceRuns p r s, x = r ∨ (x ∈ s ∧ p x = false) := by
  induction s using scan_induction p with
  | nil => simp [replaceRuns_nil]
  | pos c cs h ih =>
    intro x hx
    rw [replaceRuns_cons_pos p r cs h] at hx
    rcases List.mem_cons.1 hx with hx | hx
    · exact Or.inl hx
    · rcases ih x hx with h1 | ⟨h1, h2⟩
      · exact Or.inl h1
      · exact Or.inr ⟨List.mem_cons_of_mem _ ((List.dropWhile_suffix p).subset h1), h2⟩
  | neg c cs h ih =>
    intro x hx
    rw [replaceRuns_cons_neg p r cs h] at hx
    rcases List.mem_cons.1 hx with hx | hx
    · exact Or.inr ⟨by simp [hx], by rw [hx]; exact h⟩
    · rcases ih x hx with h1 | ⟨h1, h2⟩
      · exact Or.inl h1
      · exact Or.inr ⟨List.mem_cons_of_mem _ h1, h2⟩

theorem headOutside_replaceRuns {p : Nat → Bool} (r : Nat) {s : JSString}
    (h : HeadOutside p s) : HeadOutside p (replaceRuns p r s) := by
  cases s with
  | nil => simp [replaceRuns_nil, HeadOutside]
  | cons c cs =>
    have hc : p c = false := (headOutside_cons p c cs).1 h
    rw [replaceRuns_cons_neg p r cs hc]
    exact (headOutside_cons p c _).2 hc

theorem dropWhile_dropWhile_of_imp {p q : Nat → Bool} (hqp : ∀ c, q c = true → p c = true)
    (s : JSString) : (s.dropWhile q).dropWhile p = s.dropWhile p := by
  induction s with
  | nil => rfl
  | cons c cs ih =>
    by_cases h : q c = true
    · rw [List.dropWhile_cons_of_pos h, List.dropWhile_cons_of_pos (hqp c h), ih]
    · rw [List.dropWhile_cons_of_neg h]

/-- Dropping a leading run of the wider class commutes with replacing runs of
the narrower one, when the replacement is in the wider class. -/
theorem dropWhile_replaceRuns {p q : Nat → Bool} {r : Nat}
    (hqp : ∀ c, q c = true → p c = true) (hr : p r = true) (s : JSString) :
    (replaceRuns q r s).dropWhile p = replaceRuns q r (s.dropWhile p) := by
  induction s using scan_induction q with
  | nil => simp [replaceRuns_nil]
  | pos c cs h ih =>
    rw [replaceRuns_cons_pos q r cs h, List.dropWhile_cons_of_pos hr, ih,
      dropWhile_dropWhile_of_imp hqp, List.dropWhile_cons_of_pos (hqp c h)]
  | neg c cs h ih =>
    rw [replaceRuns_cons_neg q r cs h]
    by_cases hp : p c = true
    · rw [List.dropWhile_cons_of_pos hp, List.dropWhile_cons_of_pos hp, ih]
    · rw [List.dropWhile_cons_of_neg hp, List.dropWhile_cons_of_neg hp,
        replaceRuns_cons_neg q r cs h]

/-- Replacing runs of a narrower class by a member of the wider class first
does not change what replacing the runs of the wider class gives. -/
theorem replaceRuns_replaceRuns {p q : Nat → Bool} {r : Nat}
    (hqp : ∀ c, q c = true → p c = true) (hr : p r = true) (s : JSString) :
    replaceRuns p r (replaceRuns q r s) = replaceRuns p r s := by
  induction s using scan_induction p with
  | nil => simp [replaceRuns_nil]
  | pos c cs h ih =>
    rw [replaceRuns_cons_pos p r cs h]
    by_cases hq : q c = true
    · rw [replaceRuns_cons_pos q r cs hq, replaceRuns_cons_pos p r _ hr,
        dropWhile_replaceRuns hqp hr, dropWhile_dropWhile_of_imp hqp, ih]
    · have hq' : q c = false := by simpa using hq
      rw [replaceRuns_cons_neg q r cs hq', replaceRuns_cons_pos p r _ h,
        dropWhile_replaceRuns hqp hr, ih]
  | neg c cs h ih =>
    have hq : q c = false := by
      by_contra hq
      have := hqp c (by simpa using hq)
      simp [h] at this
    rw [replaceRuns_cons_neg q r cs hq, replaceRuns_cons_neg p r _ h,
      replaceRuns_cons_neg p r cs h, ih]

/-! ## Maximal runs and their joining -/

theorem maximalRuns_nil (p : Nat → Bool) : maximalRuns p [] = [] := by
  simp [maximalRuns]

theorem maximalRuns_cons_pos (p : Nat → Bool) {c : Nat} (cs : JSString) (h : p c = true) :
    maximalRuns p (c :: cs) = maximalRuns p cs := by
  simp [maximalRuns, h]

theorem maximalRuns_dropWhile (p : Nat → Bool) (s : JSString) :
    maximalRuns p (s.dropWhile p) = maximalRuns p s := by
  induction s with
  | nil => rfl
  | cons c cs ih =>
    by_cases h : p c = true
    · rw [List.dropWhile_cons_of_pos h, ih, maximalRuns_cons_pos p cs h]
    · rw [List.dropWhile_cons_of_neg h]

theorem maximalRuns_singleton (p : Nat → Bool) {c : Nat} (h : p c = false) :
    maximalRuns p [c] = [[c]] := by
  simp [maximalRuns, h]

theorem maximalRuns_cons_neg_pos (p : Nat → Bool) {c d : Nat} (ds : JSString)
    (hc : p c = false) (hd : p d = true) :
    maximalRuns p (c :: d :: ds) = [c] :: maximalRuns p ds := by
  simp [maximalRuns, hc, hd]

theorem maximalRuns_cons_neg_neg (p : Nat → Bool) {c d : Nat} (ds : JSString)
    (hc : p c = false) (hd : p d = false) :
    ∃ w ws, maximalRuns p (d :: ds) = w :: ws ∧
      maximalRuns p (c :: d :: ds) = (c :: w) :: ws := by
  obtain ⟨h, t, ht⟩ : ∃ h t, ds.splitOnP p = h :: t := by
    cases hs : ds.splitOnP p with
    | nil => exact absurd hs (List.splitOnP_ne_nil p ds)
    | cons h t => exact ⟨h, t, rfl⟩
  refine ⟨d :: h, t.filter (fun w => !w.isEmpty), ?_, ?_⟩
  · simp [maximalRuns, hd, ht]
  · simp [maximalRuns, hc, hd, ht]

theorem mem_maximalRuns_ne_nil (p : Nat → Bool) (s : JSString) :
    ∀ w ∈ maximalRuns p s, w ≠ [] := by
  intro w hw
  have := (List.mem_filter.1 hw).2
  intro h
  simp [h] at this

theorem intercalate_cons_cons (sep a b : JSString) (l : List JSString) :
    sep.intercalate (a :: b :: l) = a ++ sep ++ sep.intercalate (b :: l) := by
  simp [List.intercalate, List.intersperse]

theorem intercalate_eq_nil_iff (sep : JSString) (l : List JSString)
    (h : ∀ w ∈ l, w ≠ []) : sep.intercalate l = [] ↔ l = [] := by
  cases l with
  | nil => simp [List.intercalate]
  | cons a t =>
    have ha : a ≠ [] := h a (List.mem_cons_self _ _)
    cases t with
    | nil => simp [List.intercalate, ha]
    | cons b u => simp [intercalate_cons_cons, ha]

/-! ## Trimming after the replacement of runs -/

theorem rdropWhile_cons_neg {p : Nat → Bool} {c : Nat} (s : JSString) (h : p c = false) :
    (c :: s).rdropWhile p = c :: s.rdropWhile p := by
  simp only [List.rdropWhile, List.reverse_cons, List.dropWhile_append]
  split <;> simp_all

theorem rdropWhile_cons_pos {p : Nat → Bool} {c : Nat} (s : JSString) (h : p c = true) :
    (c :: s).rdropWhile p = if s.rdropWhile p = [] then [] else c :: s.rdropWhile p := by
  simp only [List.rdropWhile, List.reverse_cons, List.dropWhile_append]
  by_cases e : (s.reverse.dropWhile p) = []
  · simp [e, h]
  · have e' : (s.reverse.dropWhile p).isEmpty = false := by
      cases he : s.reverse.dropWhile p with
      | nil => exact absurd he e
      | cons a t => rfl
    rw [if_neg (by simp [e']), if_neg (by simpa using e)]
    simp

/-- What is left of `replaceRuns p r s` once its trailing class members are
dropped: the maximal runs joined by `r`, after a leading `r` when `s` starts
inside the class and has a run at all. -/
theorem rdropWhile_replaceRuns (p : Nat → Bool) {r : Nat} (hr : p r = true) (s : JSString) :
    (HeadOutside p s →
      (replaceRuns p r s).rdropWhile p = [r].intercalate (maximalRuns p s)) ∧
    (¬ HeadOutside p s →
      (replaceRuns p r s).rdropWhile p =
        if maximalRuns p s = [] then [] else r :: [r].intercalate (maximalRuns p s)) := by
  induction s using scan_induction p with
  | nil =>
    refine ⟨fun _ => ?_, fun h => absurd (headOutside_nil p) h⟩
    simp [replaceRuns_nil, maximalRuns_nil, List.intercalate]
  | pos c cs h ih =>
    refine ⟨fun hh => ?_, fun _ => ?_⟩
    · rw [headOutside_cons] at hh
      simp [h] at hh
    · have e := ih.1 (headOutside_dropWhile p cs)
      rw [maximalRuns_dropWhile] at e
      rw [replaceRuns_cons_pos p r cs h, rdropWhile_cons_pos _ hr, e,
        maximalRuns_cons_pos p cs h]
      simp only [intercalate_eq_nil_iff [r] _ (mem_maximalRuns_ne_nil p cs)]
  | neg c cs h ih =>
    refine ⟨fun _ => ?_, fun hh => absurd ((headOutside_cons p c cs).2 h) hh⟩
    rw [replaceRuns_cons_neg p r cs h, rdropWhile_cons_neg _ h]
    cases cs with
    | nil => simp [replaceRuns_nil, maximalRuns_singleton p h, List.intercalate]
    | cons d ds =>
      by_cases hd : p d = true
      · have e := ih.2 (by rw [headOutside_cons]; simp [hd])
        rw [e, maximalRuns_cons_pos p ds hd, maximalRuns_cons_neg_pos p ds h hd]
        cases hm : maximalRuns p ds with
        | nil => simp [List.intercalate]
        | cons w ws => simp [intercalate_cons_cons]
      · have hd' : p d = false := by simpa using hd
        have e := ih.1 ((headOutside_cons p d ds).2 hd')
        obtain ⟨w, ws, h1, h2⟩ := maximalRuns_cons_neg_neg p ds h hd'
        rw [e, h1, h2]
        cases ws with
        | nil => simp [List.intercalate]
        | cons v vs => simp [intercalate_cons_cons]

/-- Replacing the runs of a class by one of its members and dropping the class
members at both ends leaves the maximal runs joined by that member. -/
theorem trim_replaceRuns (p : Nat → Bool) {r : Nat} (hr : p r = true) (s : JSString) :
    ((replaceRuns p r s).dropWhile p).rdropWhile p = [r].intercalate (maximalRuns p s) := by
  rw [dropWhile_replaceRuns (fun _ h => h) hr,
    (rdropWhile_replaceRuns p hr _).1 (headOutside_dropWhile p s), maximalRuns_dropWhile]

theorem isWhiteSpace_space : isWhiteSpace space = true := by decide

theorem isWhiteSpace_of_isNewline (c : Nat) (h : isNewline c = true) :
    isWhiteSpace c = true := by
  have hc : c = 0x0A := by simpa [isNewline] using h
  subst hc
  decide

/-- The method chain computes the joined maximal runs. -/
theorem cleanString_eq_spec (text : JSString) : cleanString text = cleanStringSpec text := by
  unfold cleanString cleanStringSpec trim removeAll
  rw [replaceRuns_replaceRuns isWhiteSpace_of_isNewline isWhiteSpace_space,
    trim_replaceRuns isWhiteSpace isWhiteSpace_space]

/-! ## The shape of the sanitizer's result -/

theorem replaceRuns_eq_of_mem {p : Nat → Bool} {r : Nat} (s : JSString) :
    ∀ x ∈ replaceRuns p r s, p x = true → x = r := by
  intro x hx hp
  rcases mem_replaceRuns p r s x hx with h | ⟨_, h⟩
  · exact h
  · simp [hp] at h

theorem chain_replaceRuns (p : Nat → Bool) (r : Nat) (s : JSString) :
    (replaceRuns p r s).Chain' (fun a b => ¬ (p a = true ∧ p b = true)) := by
  induction s using scan_induction p with
  | nil => simp [replaceRuns_nil]
  | pos c cs h ih =>
    rw [replaceRuns_cons_pos p r cs h, List.chain'_cons']
    refine ⟨fun y hy hh => ?_, ih⟩
    have := headOutside_replaceRuns r (headOutside_dropWhile p cs) y hy
    simp [this] at hh
  | neg c cs h ih =>
    rw [replaceRuns_cons_neg p r cs h, List.chain'_cons']
    exact ⟨fun y _ hh => by simp [h] at hh, ih⟩

theorem headOutside_of_prefix {p : Nat → Bool} {s t : JSString} (h : HeadOutside p s)
    (hts : t <+: s) : HeadOutside p t := by
  obtain ⟨u, rfl⟩ := hts
  cases t with
  | nil => exact headOutside_nil p
  | cons a t => simpa [HeadOutside] using h

theorem trim_subset (s : JSString) : ∀ c ∈ trim s, c ∈ s := fun _ hc =>
  (List.dropWhile_suffix isWhiteSpace).subset
    ((List.rdropWhile_prefix isWhiteSpace _).subset hc)

theorem trim_segment (s : JSString) : trim s <:+: s :=
  (List.rdropWhile_prefix isWhiteSpace _).isInfix.trans
    (List.dropWhile_suffix isWhiteSpace).isInfix

theorem headOutside_trim (s : JSString) : HeadOutside isWhiteSpace (trim s) :=
  headOutside_of_prefix (headOutside_dropWhile isWhiteSpace s)
    (List.rdropWhile_prefix isWhiteSpace _)

theorem getLast_trim (s : JSString) : ∀ c ∈ (trim s).getLast?, isWhiteSpace c = false := by
  intro c hc
  by_cases hn : trim s = []
  · simp [hn] at hc
  · rw [List.getLast?_eq_getLast _ hn] at hc
    have hc' : (trim s).getLast hn = c := by simpa using hc
    have := List.rdropWhile_last_not isWhiteSpace (s.dropWhile isWhiteSpace) hn
    rw [← hc']
    simpa [trim] using this

theorem trim_trim (s : JSString) : trim (trim s) = trim s := by
  have h := dropWhile_of_headOutside (headOutside_trim s)
  rw [trim, h]
  exact List.rdropWhile_idempotent isWhiteSpace _

theorem replaceRuns_eq_self_of_outside {p : Nat → Bool} (r : Nat) (s : JSString)
    (h : ∀ c ∈ s, p c = false) : replaceRuns p r s = s := by
  induction s with
  | nil => exact replaceRuns_nil p r
  | cons c cs ih =>
    rw [replaceRuns_cons_neg p r cs (h c (List.mem_cons_self _ _)),
      ih (fun x hx => h x (List.mem_cons_of_mem _ hx))]

theorem replaceRuns_eq_self_of_chain {p : Nat → Bool} {r : Nat} (s : JSString)
    (hr : ∀ c ∈ s, p c = true → c = r)
    (hc : s.Chain' (fun a b => ¬ (p a = true ∧ p b = true))) : replaceRuns p r s = s := by
  induction s with
  | nil => exact replaceRuns_nil p r
  | cons c cs ih =>
    rw [List.chain'_cons'] at hc
    have ih' := ih (fun x hx => hr x (List.mem_cons_of_mem _ hx)) hc.2
    by_cases h : p c = true
    · have hcs : HeadOutside p cs := fun y hy => by
        have := hc.1 y hy
        simpa [h] using this
      rw [replaceRuns_cons_pos p r cs h, dropWhile_of_headOutside hcs, ih',
        hr c (List.mem_cons_self _ _) h]
    · rw [replaceRuns_cons_neg p r cs (by simpa using h), ih']

theorem isMarkdownSymbol_space : isMarkdownSymbol space = false := by decide

theorem not_isMarkdownSymbol_of_mem_cleanString (text : JSString) :
    ∀ c ∈ cleanString text, isMarkdownSymbol c = false := by
  intro c hc
  have h1 := trim_subset _ c hc
  rcases mem_replaceRuns _ _ _ c h1 with h | ⟨h2, _⟩
  · rw [h]; exact isMarkdownSymbol_space
  · rcases mem_replaceRuns _ _ _ c h2 with h | ⟨h3, _⟩
    · rw [h]; exact isMarkdownSymbol_space
    · simpa [removeAll] using (List.mem_filter.1 h3).2

theorem eq_space_of_mem_cleanString (text : JSString) :
    ∀ c ∈ cleanString text, isWhiteSpace c = true → c = space := fun c hc hw =>
  replaceRuns_eq_of_mem _ c (trim_subset _ c hc) hw

theorem chain_cleanString (text : JSString) :
    (cleanString text).Chain' (fun a b => ¬ (isWhiteSpace a = true ∧ isWhiteSpace b = true)) :=
  List.Chain'.infix (chain_replaceRuns isWhiteSpace space _) (trim_segment _)

theorem cleanString_cleanString (text : JSString) :
    cleanString (cleanString text) = cleanString text := by
  have h1 : removeAll isMarkdownSymbol (cleanString text) = cleanString text := by
    unfold removeAll
    rw [List.filter_eq_self]
    intro c hc
    simp [not_isMarkdownSymbol_of_mem_cleanString text c hc]
  have h2 : replaceRuns isNewline space (cleanString text) = cleanString text := by
    apply replaceRuns_eq_self_of_outside
    intro c hc
    by_contra hn
    have hn' : isNewline c = true := by simpa using hn
    have := eq_space_of_mem_cleanString text c hc (isWhiteSpace_of_isNewline c hn')
    rw [this] at hn'
    exact absurd hn' (by decide)
  have h3 : replaceRuns isWhiteSpace space (cleanString text) = cleanString text :=
    replaceRuns_eq_self_of_chain _ (eq_space_of_mem_cleanString text) (chain_cleanString text)
  conv_lhs => rw [cleanString, h1, h2, h3]
  exact trim_trim _

/-! ## The component's two state cells along a history -/

theorem capability_speak (props : Props) (w : World) :
    (speak props w).world.capability = w.capability := by
  unfold speak
  split_ifs <;> first | rfl | (split <;> rfl)

theorem supported_speak (props : Props) (w : World) :
    (speak props w).world.supported = w.supported := by
  unfold speak
  split_ifs <;> first | rfl | (split <;> rfl)

theorem isSpeaking_speak (props : Props) (w : World) :
    (speak props w).world.isSpeaking = w.isSpeaking := by
  unfold speak
  split_ifs <;> first | rfl | (split <;> rfl)

theorem capability_stop (w : World) : (stop w).world.capability = w.capability := by
  unfold stop
  split_ifs <;> rfl

theorem supported_stop (w : World) : (stop w).world.supported = w.supported := by
  unfold stop
  split_ifs <;> rfl

theorem capability_mountEffect (w : World) : (mountEffect w).capability = w.capability := by
  unfold mountEffect
  split_ifs <;> rfl

theorem supported_mountEffect (w : World) :
    (mountEffect w).supported = (w.supported && w.capability) := by
  unfold mountEffect
  cases hc : w.capability <;> simp

theorem capability_step (w : World) (e : Event) : (step w e).capability = w.capability := by
  cases e with
  | mountEffect => exact capability_mountEffect w
  | speak props => exact capability_speak props w
  | stop => exact capability_stop w
  | onstart => rfl
  | onend => rfl
  | onerror => rfl

theorem supported_step (w : World) (e : Event) :
    (step w e).supported = if e = .mountEffect then (w.supported && w.capability) else w.supported := by
  cases e with
  | mountEffect => simpa [step] using supported_mountEffect w
  | speak props => simpa [step] using supported_speak props w
  | stop => simpa [step] using supported_stop w
  | onstart => rfl
  | onend => rfl
  | onerror => rfl

theorem capability_run (capability : Bool) (history : List Event) :
    (run capability history).capability = capability := by
  unfold run
  induction history using List.reverseRecOn with
  | nil => rfl
  | append_singleton es e ih => rw [List.foldl_append]; simpa [capability_step] using ih

theorem supported_of_reachable {w : World} (hw : Reachable w) (hc : w.capability = true) :
    w.supported = true := by
  obtain ⟨history, h⟩ := hw
  have key : ∀ es : List Event, (run true es).supported = true := by
    intro es
    induction es using List.reverseRecOn with
    | nil => rfl
    | append_singleton es e ih =>
      have hcap := capability_run true es
      unfold run at ih hcap ⊢
      rw [List.foldl_append, List.foldl_cons, List.foldl_nil, supported_step, ih, hcap]
      simp
  rw [h, hc]
  exact key history

theorem supported_of_mounted {w : World} (hw : Mounted w) : w.supported = w.capability := by
  obtain ⟨history, h⟩ := hw
  have key : ∀ (cap : Bool) (es : List Event), (run cap (.mountEffect :: es)).supported = cap := by
    intro cap es
    induction es using List.reverseRecOn with
    | nil => cases cap <;> rfl
    | append_singleton es e ih =>
      have hcap := capability_run cap (.mountEffect :: es)
      unfold run at ih hcap ⊢
      rw [← List.cons_append, List.foldl_append, List.foldl_cons, List.foldl_nil,
        supported_step, ih, hcap]
      simp
  have hk := key w.capability history
  rw [← h] at hk
  exact hk

theorem cleanString_nil : cleanString [] = [] := by
  simp [cleanString, removeAll, replaceRuns_nil, trim]

theorem cleanMarkdown_string (s : JSString) : cleanMarkdown (.string s) = .ok (cleanString s) := by
  cases s with
  | nil => simp [cleanMarkdown, JSValue.toBoolean, cleanString_nil]
  | cons c cs => simp [cleanMarkdown, JSValue.toBoolean]

theorem cleanMarkdown_stringObject (s : JSString) :
    cleanMarkdown (.stringObject s) = .ok (cleanString s) := by
  simp [cleanMarkdown, JSValue.toBoolean]

theorem cleanMarkdown_of_falsy {v : JSValue} (h : v.toBoolean = false) :
    cleanMarkdown v = .ok [] := by
  simp [cleanMarkdown, h]

theorem outstanding_append_cancel (calls : List PlatformCall) :
    outstanding (calls ++ [.cancel]) = [] := by
  simp [outstanding, List.foldl_append]

theorem mem_markdownSymbols (c : Nat) :
    c ∈ js "#*\x60_~[]()<>" ↔ isMarkdownSymbol c = true := by
  simp [js, encodeUTF16, isMarkdownSymbol, or_assoc]

/-! ## The code units outside the class survive, in order -/

theorem filter_dropWhile_of_imp {p q : Nat → Bool} (hqp : ∀ c, q c = true → p c = true)
    (s : JSString) :
    (s.dropWhile q).filter (fun c => !p c) = s.filter (fun c => !p c) := by
  induction s with
  | nil => rfl
  | cons c cs ih =>
    by_cases h : q c = true
    · rw [List.dropWhile_cons_of_pos h, ih, List.filter_cons_of_neg (by simp [hqp c h])]
    · rw [List.dropWhile_cons_of_neg h]

theorem filter_rdropWhile (p : Nat → Bool) (s : JSString) :
    (s.rdropWhile p).filter (fun c => !p c) = s.filter (fun c => !p c) := by
  have h := filter_dropWhile_of_imp (p := p) (q := p) (fun _ h => h) s.reverse
  rw [List.rdropWhile, List.filter_reverse, h, List.filter_reverse, List.reverse_reverse]

theorem filter_replaceRuns {p q : Nat → Bool} {r : Nat}
    (hqp : ∀ c, q c = true → p c = true) (hr : p r = true) (s : JSString) :
    (replaceRuns q r s).filter (fun c => !p c) = s.filter (fun c => !p c) := by
  induction s using scan_induction q with
  | nil => rw [replaceRuns_nil]
  | pos c cs h ih =>
    rw [replaceRuns_cons_pos q r cs h, List.filter_cons_of_neg (by simp [hr]), ih,
      filter_dropWhile_of_imp hqp, List.filter_cons_of_neg (by simp [hqp c h])]
  | neg c cs h ih =>
    rw [replaceRuns_cons_neg q r cs h, List.filter_cons, List.filter_cons, ih]

theorem filter_cleanString (text : JSString) :
    (cleanString text).filter (fun c => !isWhiteSpace c) =
      (text.filter (fun c => !isMarkdownSymbol c)).filter (fun c => !isWhiteSpace c) := by
  unfold cleanString trim removeAll
  rw [filter_rdropWhile, filter_dropWhile_of_imp (fun _ h => h),
    filter_replaceRuns (fun _ h => h) isWhiteSpace_space,
    filter_replaceRuns isWhiteSpace_of_isNewline isWhiteSpace_space]

/-! ## The sanitizer's contract -/

/-- C1: for every string, `cleanMarkdown` returns a string that contains none
of the characters `# * backtick _ ~ [ ] ( ) < >`. -/
theorem cleanMarkdown_no_markdown_symbol (s : JSString) :
    ∃ out, cleanMarkdown (.string s) = .ok out ∧ ∀ c ∈ out, c ∉ js "#*\x60_~[]()<>" := by
  refine ⟨cleanString s, cleanMarkdown_string s, fun c hc hm => ?_⟩
  have h := not_isMarkdownSymbol_of_mem_cleanString s c hc
  rw [(mem_markdownSymbols c).1 hm] at h
  exact Bool.noConfusion h

/-- C2: for every string, `cleanMarkdown` returns a string with no newline
character, with no two adjacent white-space characters, and with no white-space
character at its start or at its end. -/
theorem cleanMarkdown_whitespace_normalized (s : JSString) :
    ∃ out, cleanMarkdown (.string s) = .ok out ∧
      0x0A ∉ out ∧
      out.Chain' (fun a b => ¬ (isWhiteSpace a = true ∧ isWhiteSpace b = true)) ∧
      (∀ c ∈ out.head?, isWhiteSpace c = false) ∧
      (∀ c ∈ out.getLast?, isWhiteSpace c = false) := by
  refine ⟨cleanString s, cleanMarkdown_string s, fun hn => ?_, chain_cleanString s,
    headOutside_trim _, getLast_trim _⟩
  have := eq_space_of_mem_cleanString s _ hn (by decide)
  exact absurd this (by decide)

/-- C3: for every string, `cleanMarkdown` returns the maximal runs of
non-white-space characters of the string with the markdown symbols deleted,
in their order and joined by single spaces; the characters of the result other
than those spaces are the non-white-space characters left by the deletion, in
their order; and `"# Hello\n\n*World*   (test)"` gives `"Hello World test"`. -/
theorem cleanMarkdown_eq_joined_runs (s : JSString) :
    cleanMarkdown (.string s) = .ok (cleanStringSpec s) ∧
    (cleanStringSpec s).filter (fun c => !isWhiteSpace c) =
      (s.filter (fun c => !isMarkdownSymbol c)).filter (fun c => !isWhiteSpace c) ∧
    cleanMarkdown (.string (js "# Hello\n\n*World*   (test)")) = .ok (js "Hello World test") := by
  refine ⟨?_, ?_, ?_⟩
  · rw [cleanMarkdown_string, cleanString_eq_spec]
  · rw [← cleanString_eq_spec]
    exact filter_cleanString s
  · have h : cleanStringSpec (js "# Hello\n\n*World*   (test)") = js "Hello World test" := by
      decide
    rw [cleanMarkdown_string, cleanString_eq_spec, h]

/-- C4: `cleanMarkdown` is idempotent on strings and absent values: it returns
a string there, and applied to that string it returns the same string; for the
empty string and for an absent value it returns the empty string. -/
theorem cleanMarkdown_idempotent (x : JSValue) (hx : x.isString = true ∨ x.isAbsent = true) :
    ∃ out, cleanMarkdown x = .ok out ∧ cleanMarkdown (.string out) = .ok out ∧
      (x.isEmptyOrAbsent = true → out = []) := by
  cases x with
  | string s =>
    refine ⟨cleanString s, cleanMarkdown_string s, ?_, fun h => ?_⟩
    · rw [cleanMarkdown_string, cleanString_cleanString]
    · have hs : s = [] := by simpa [JSValue.isEmptyOrAbsent] using h
      rw [hs, cleanString_nil]
  | undefined => exact ⟨[], rfl, rfl, fun _ => rfl⟩
  | null => exact ⟨[], rfl, rfl, fun _ => rfl⟩
  | boolean b => simp [JSValue.isString, JSValue.isAbsent] at hx
  | number n => simp [JSValue.isString, JSValue.isAbsent] at hx
  | bigint i => simp [JSValue.isString, JSValue.isAbsent] at hx
  | symbol => simp [JSValue.isString, JSValue.isAbsent] at hx
  | stringObject s => simp [JSValue.isString, JSValue.isAbsent] at hx
  | object => simp [JSValue.isString, JSValue.isAbsent] at hx

theorem cleanMarkdown_idempotent_witness :
    ∃ out, cleanMarkdown (.string (js "# Hello\n\n*World*   (test)")) = .ok out ∧
      cleanMarkdown (.string out) = .ok out ∧
      ((JSValue.string (js "# Hello\n\n*World*   (test)")).isEmptyOrAbsent = true → out = []) :=
  cleanMarkdown_idempotent (.string (js "# Hello\n\n*World*   (test)")) (Or.inl rfl)

/-- C5, as stated, fails: on a non-zero number, on `true` and on an object
`cleanMarkdown` throws instead of returning a string. -/
theorem cleanMarkdown_throws_on_truthy_non_string :
    cleanMarkdown (.number (.finite 5 0)) = .error (.typeError "text.replace is not a function") ∧
    cleanMarkdown (.boolean true) = .error (.typeError "text.replace is not a function") ∧
    cleanMarkdown .object = .error (.typeError "text.replace is not a function") :=
  ⟨rfl, rfl, rfl⟩

/-- C5, amended: `cleanMarkdown` raises no exception on a string or on a falsy
value: it returns a string there, the empty one for a falsy value.  On a truthy
value with no `replace` method, such as a non-zero number, `true` or a plain
object, it throws a `TypeError`. -/
theorem cleanMarkdown_total_on_strings_and_falsy (x : JSValue) :
    (x.isString = true ∨ x.toBoolean = false → ∃ out, cleanMarkdown x = .ok out) ∧
    (x.toBoolean = false → cleanMarkdown x = .ok []) ∧
    (x.toBoolean = true → x.hasReplaceMethod = false →
      ∃ m, cleanMarkdown x = .error (.typeError m)) := by
  refine ⟨?_, cleanMarkdown_of_falsy, ?_⟩
  · rintro (h | h)
    · cases x <;> simp [JSValue.isString] at h
      exact ⟨_, cleanMarkdown_string _⟩
    · exact ⟨[], cleanMarkdown_of_falsy h⟩
  · intro hb hr
    cases x <;> simp_all [cleanMarkdown, JSValue.hasReplaceMethod]

theorem cleanMarkdown_total_on_strings_and_falsy_witness :
    (∃ out, cleanMarkdown (.string (js "# x")) = .ok out) ∧
    cleanMarkdown (.number .nan) = .ok [] ∧
    (∃ m, cleanMarkdown (.bigint 7) = .error (.typeError m)) :=
  ⟨(cleanMarkdown_total_on_strings_and_falsy (.string (js "# x"))).1 (Or.inl rfl),
    (cleanMarkdown_total_on_strings_and_falsy (.number .nan)).2.1 rfl,
    (cleanMarkdown_total_on_strings_and_falsy (.bigint 7)).2.2 (by decide) rfl⟩

/-! ## The speech controller -/

theorem toBoolean_of_isEmptyOrAbsent {v : JSValue} (h : v.isEmptyOrAbsent = true) :
    v.toBoolean = false := by
  cases v <;> simp_all [JSValue.isEmptyOrAbsent, JSValue.toBoolean]

theorem speak_of_falsy (props : Props) (w : World) (h : props.text.toBoolean = false) :
    speak props w = ⟨w, none⟩ := by
  simp [speak, h]

theorem world_speak_of_no_capability (props : Props) (w : World) (h : w.capability = false) :
    (speak props w).world = w := by
  unfold speak
  split_ifs <;> first | rfl | simp_all

theorem speak_of_string (w : World) (hc : w.capability = true) (hs : w.supported = true)
    (s : JSString) (hne : s ≠ []) (language : Option JSString) :
    speak ⟨.string s, language⟩ w =
      ⟨{ w with calls := w.calls ++
          [.cancel, .speak ⟨cleanString s, language.getD (js "en-US")⟩] }, none⟩ := by
  have ht : (JSValue.string s).toBoolean = true := by
    cases s with
    | nil => exact absurd rfl hne
    | cons c cs => rfl
  simp [speak, hc, hs, ht, cleanMarkdown_string, Props.languageOrDefault]

theorem cleanString_hello : cleanString (js "Hello") = js "Hello" := by
  rw [cleanString_eq_spec]
  decide

/-- C6: with the capability present and a non-empty text, `speak` calls
`cancel` and then `speak` once, with the utterance whose text is
`cleanMarkdown(text)` and whose language is the language prop (`"en-US"` when
it is omitted), and makes no other call; with the capability absent, or with
an empty or absent text, it leaves the world as it was (no call, the same
playback state). -/
theorem speak_platform_effects (w : World) (hw : Reachable w) (language : Option JSString) :
    (w.capability = true → ∀ s : JSString, s ≠ [] →
      cleanMarkdown (.string s) = .ok (cleanString s) ∧
      speak ⟨.string s, language⟩ w =
        ⟨{ w with calls := w.calls ++
            [.cancel, .speak ⟨cleanString s, language.getD (js "en-US")⟩] }, none⟩) ∧
    (∀ text : JSValue, w.capability = false ∨ text.isEmptyOrAbsent = true →
      (speak ⟨text, language⟩ w).world = w) := by
  refine ⟨fun hc s hne => ⟨cleanMarkdown_string s, ?_⟩, fun text h => ?_⟩
  · exact speak_of_string w hc (supported_of_reachable hw hc) s hne language
  · rcases h with h | h
    · exact world_speak_of_no_capability _ w h
    · rw [speak_of_falsy _ w (toBoolean_of_isEmptyOrAbsent h)]

theorem speak_platform_effects_witness :
    speak ⟨.string (js "Hello"), some (js "fr-FR")⟩ (run true [.mountEffect]) =
        ⟨{ run true [.mountEffect] with
            calls := [.cancel, .speak ⟨js "Hello", js "fr-FR"⟩] }, none⟩ ∧
    (speak ⟨.string [], some (js "fr-FR")⟩ (run true [.mountEffect])).world =
      run true [.mountEffect] := by
  have h := speak_platform_effects (run true [.mountEffect]) ⟨[.mountEffect], rfl⟩
    (some (js "fr-FR"))
  refine ⟨?_, h.2 (.string []) (Or.inr rfl)⟩
  have h1 := (h.1 rfl (js "Hello") (by decide)).2
  rw [cleanString_hello] at h1
  exact h1

/-- C7, as stated, fails: with the capability present, the state Idle and the
text `"Hello"`, `speak` returns normally and the state is still Idle. -/
theorem speak_leaves_idle :
    (run true [.mountEffect]).capability = true ∧
    (run true [.mountEffect]).isSpeaking = false ∧
    (speak ⟨.string (js "Hello"), some (js "fr-FR")⟩ (run true [.mountEffect])).thrown = none ∧
    ¬ (speak ⟨.string (js "Hello"), some (js "fr-FR")⟩
        (run true [.mountEffect])).world.isSpeaking = true := by
  refine ⟨rfl, rfl, ?_, ?_⟩
  · rw [speak_of_string _ rfl rfl _ (by decide)]
  · rw [isSpeaking_speak]
    decide

/-- C7, amended: with the capability present and a non-empty text, `speak`
returns normally and leaves the playback state as it was; the state is
Speaking once the `onstart` callback has run, whatever it was before. -/
theorem speaking_entered_by_onstart (w : World) (hw : Reachable w)
    (hc : w.capability = true) (s : JSString) (hne : s ≠ []) (language : Option JSString) :
    (speak ⟨.string s, language⟩ w).thrown = none ∧
    (speak ⟨.string s, language⟩ w).world.isSpeaking = w.isSpeaking ∧
    (onstart (speak ⟨.string s, language⟩ w).world).isSpeaking = true ∧
    (onstart (onstart (speak ⟨.string s, language⟩ w).world)).isSpeaking = true := by
  refine ⟨?_, isSpeaking_speak _ w, rfl, rfl⟩
  rw [speak_of_string w hc (supported_of_reachable hw hc) s hne language]

theorem speaking_entered_by_onstart_witness :
    (speak ⟨.string (js "Hello"), none⟩ (run true [.mountEffect])).thrown = none ∧
    (speak ⟨.string (js "Hello"), none⟩ (run true [.mountEffect])).world.isSpeaking =
      (run true [.mountEffect]).isSpeaking ∧
    (onstart (speak ⟨.string (js "Hello"), none⟩ (run true [.mountEffect])).world).isSpeaking =
      true ∧
    (onstart (onstart
      (speak ⟨.string (js "Hello"), none⟩ (run true [.mountEffect])).world)).isSpeaking = true :=
  speaking_entered_by_onstart (run true [.mountEffect]) ⟨[.mountEffect], rfl⟩ rfl
    (js "Hello") (by decide) none

/-- C8: from any playback state, `stop`, `onend` and `onerror` each leave
`isSpeaking` false; `stop` makes exactly one platform call, `cancel`, and
`onend` and `onerror` make none. -/
theorem termination_returns_to_idle (w : World) :
    (w.capability = true →
      stop w = ⟨{ w with calls := w.calls ++ [.cancel], isSpeaking := false }, none⟩) ∧
    (onend w).isSpeaking = false ∧ (onend w).calls = w.calls ∧
    (onerror w).isSpeaking = false ∧ (onerror w).calls = w.calls := by
  refine ⟨fun hc => ?_, rfl, rfl, rfl, rfl⟩
  simp [stop, hc]

theorem termination_returns_to_idle_witness :
    stop (onstart (run true [.mountEffect])) =
      ⟨{ onstart (run true [.mountEffect]) with calls := [.cancel], isSpeaking := false },
        none⟩ :=
  (termination_returns_to_idle (onstart (run true [.mountEffect]))).1 rfl

/-- C9: whatever the playback state at unmount, with or without an earlier
`stop`, the cleanup of the mount effect calls `cancel`, after which the engine
holds no utterance. -/
theorem teardown_cancels (w : World) (hc : w.capability = true) :
    cleanup w = { w with calls := w.calls ++ [.cancel] } ∧
    outstanding (cleanup w).calls = [] := by
  have h : cleanup w = { w with calls := w.calls ++ [.cancel] } := by simp [cleanup, hc]
  refine ⟨h, ?_⟩
  rw [h]
  exact outstanding_append_cancel _

theorem teardown_cancels_witness :
    cleanup (run true [.mountEffect, .speak ⟨.string (js "Hello"), none⟩, .onstart]) =
      { run true [.mountEffect, .speak ⟨.string (js "Hello"), none⟩, .onstart] with
        calls := (run true [.mountEffect, .speak ⟨.string (js "Hello"), none⟩, .onstart]).calls
          ++ [.cancel] } ∧
    outstanding
      (cleanup (run true [.mountEffect, .speak ⟨.string (js "Hello"), none⟩, .onstart])).calls
      = [] :=
  teardown_cancels _ (capability_run true _)

/-- C10, as stated, fails: at the first render the support flag is still its
initial `true`, so with the capability absent and the text `"Hello"` the
component renders the start button, enabled. -/
theorem render_first_pass_without_capability :
    Reachable (initial false) ∧ (initial false).capability = false ∧
    render ⟨.string (js "Hello"), none⟩ (initial false) = .container [.start false] ∧
    render ⟨.string (js "Hello"), none⟩ (initial false) ≠ .null :=
  ⟨⟨[], rfl⟩, rfl, by decide, by decide⟩

/-- C10, amended: once the mount effect has run, the rendered output depends
on the capability, the playback state and the text only: nothing without the
capability, whatever the text; otherwise exactly one control, the stop button
when Speaking and the start button when Idle, the latter disabled exactly when
the text is empty or absent. -/
theorem render_derived (props : Props) (w : World) (hw : Mounted w) :
    (w.capability = false → render props w = .null) ∧
    (w.capability = true → w.isSpeaking = true → render props w = .container [.stop]) ∧
    (w.capability = true → w.isSpeaking = false →
      render props w = .container [.start (!props.text.toBoolean)] ∧
      (props.text.isString = true ∨ props.text.isAbsent = true →
        (!props.text.toBoolean) = props.text.isEmptyOrAbsent)) := by
  have hs := supported_of_mounted hw
  refine ⟨fun hc => ?_, fun hc hsp => ?_, fun hc hsp => ⟨?_, fun ht => ?_⟩⟩
  · simp [render, hs, hc]
  · simp [render, hs, hc, hsp]
  · simp [render, hs, hc, hsp]
  · cases hp : props.text <;>
      simp_all [JSValue.isString, JSValue.isAbsent, JSValue.isEmptyOrAbsent, JSValue.toBoolean]

theorem render_derived_witness :
    render ⟨.string [], none⟩ (run true [.mountEffect]) = .container [.start true] ∧
    render ⟨.string (js "Hello"), none⟩ (run false [.mountEffect]) = .null := by
  refine ⟨?_, (render_derived ⟨.string (js "Hello"), none⟩ (run false [.mountEffect])
    ⟨[], rfl⟩).1 rfl⟩
  have h := (render_derived ⟨.string [], none⟩ (run true [.mountEffect]) ⟨[], rfl⟩).2.2 rfl rfl
  exact h.1

end TextToSpeech
